import Mathlib

/-!
Verification development for `tensorcircuit/experimental.py`.

The module under study is a collection of higher-order numerical
transformations (chunked vmap, quantum natural gradient in two
formulations, Hamiltonian-evolution right-hand sides, parameter-shift
gradients, and closed-form Hamiltonian evolution) built on top of a
pluggable numerical backend.  The backend itself (its `vmap`, `jacfwd`,
`jacrev`, `vjp`, `grad`, `eigh`, ... primitives) is not part of the
source file; following the specification, those primitives are modelled
here with their standard mathematical semantics:

* tensors are `Fin`-indexed complex vectors and matrices;
* `backend.vmap f` maps `f` over the leading axis and stacks the
  results along a new leading axis;
* automatic differentiation is modelled by an oracle Jacobian carried
  alongside each differentiable function (`DiffFun`): `jacfwd`/`jacrev`
  return that Jacobian, `vjp`/`grad` of expressions built from such a
  function are the usual derivatives for real-valued parameters, with
  `stop_gradient` subterms held constant.

Fallible code paths (the `ValueError` for an unsupported postprocess
option, the Python `NameError` for an unsupported `qng` kernel, the
`IndexError` for an empty `argnums` list) are modelled with `Except`.
-/

namespace TC

noncomputable section

open Complex

/-- A tensor of shape `[d]`: a complex vector. -/
abbrev Vec (d : ℕ) := Fin d → ℂ

/-- A tensor of shape `[p, q]`: a complex matrix. -/
abbrev Mat (p q : ℕ) := Fin p → Fin q → ℂ

/-- Casting a real parameter vector to the configured complex dtype
(`backend.cast(params, dtype=dtypestr)`). -/
def castC {p : ℕ} (x : Fin p → ℝ) : Fin p → ℂ := fun i => (x i : ℂ)

/-- Modelled from the spec: a differentiable state function as the
backend autodiff sees it — its value map together with the Jacobian
that `backend.jacfwd` / `backend.jacrev` produce.  `jac x k a` is the
derivative of output component `k` with respect to parameter `a` at the
point `x`. -/
structure DiffFun (p d : ℕ) where
  val : (Fin p → ℂ) → Vec d
  jac : (Fin p → ℂ) → Fin d → Fin p → ℂ

/-- `_vdot(i, j) = backend.tensordot(backend.conj(i), j, 1)`. -/
def vdot {d : ℕ} (i j : Vec d) : ℂ := ∑ k, (starRingEnd ℂ) (i k) * j k

/-- The regularisation constant `eps = 1e-4` of `_qng_post_process`. -/
def qngEps : ℝ := 1 / 10000

/-- `_qng_post_process`: `t += eps * backend.eye(...)` followed by
`backend.real(t)`. -/
def qng_post_process {p : ℕ} (t : Mat p p) : Fin p → Fin p → ℝ :=
  fun i j => (t i j + (qngEps : ℂ) * (if i = j then 1 else 0)).re

/-- Python exceptions surfaced by the module, modelled as values. -/
inductive PyErr where
  | valueError (msg : String) : PyErr
  | nameError (msg : String) : PyErr
  | indexError (msg : String) : PyErr
deriving DecidableEq

/-- The message of the Python `NameError`/`UnboundLocalError` raised when
the local pairing function `ij` of `qng` was never defined. -/
def nameErrMsg : String := "NameError: local variable ij referenced before assignment"

/-- The `postprocess` argument of `qng`/`qng2`: a string, `None`, or a
callable. -/
inductive PostProcess (p : ℕ) where
  | pstr (s : String) : PostProcess p
  | pnone : PostProcess p
  | pfun (g : Mat p p → Mat p p) : PostProcess p

/-- A tensor returned by a `qng`-family wrapper: real after the default
postprocess, complex otherwise. -/
inductive TOut (p : ℕ) where
  | rmat (m : Fin p → Fin p → ℝ) : TOut p
  | cmat (m : Mat p p) : TOut p

/-- Resolution of the `postprocess` option, lines 118–127 of the source:
a string other than `"qng"` raises
`ValueError("Unsupported postprocess option")`, `None` resolves to the
identity `_id`, and a callable is used as is. -/
def resolvePost {p : ℕ} : PostProcess p → Except PyErr (Mat p p → TOut p)
  | PostProcess.pstr s =>
    if s = "qng" then Except.ok (fun m => TOut.rmat (qng_post_process m))
    else Except.error (PyErr.valueError "Unsupported postprocess option")
  | PostProcess.pnone => Except.ok TOut.cmat
  | PostProcess.pfun g => Except.ok (fun m => TOut.cmat (g m))

/-- The local pairing kernel `ij` of `qng`: defined for the kernels
`"qng"` and `"dynamics"` only; any other kernel string leaves `ij`
undefined (a Python name error at the `backend.vmap(ij, ...)` call). -/
def kernelBody {d : ℕ} (kernel : String) (psi : Vec d) :
    Option (Vec d → Vec d → ℂ) :=
  if kernel = "qng" then
    some (fun i j => vdot i j - vdot i psi * vdot psi j)
  else if kernel = "dynamics" then
    some (fun i j => vdot i j)
  else none

/-- Modelled from the spec: `backend.vmap(g, vectorized_argnums=0)` —
the first argument gains a leading batch axis mapped over. -/
def vmap0 {α β γ : Type} {m : ℕ} (g : α → β → γ) (M : Fin m → α) (y : β) :
    Fin m → γ := fun a => g (M a) y

/-- Modelled from the spec: `backend.vmap(g, vectorized_argnums=1)` —
the second argument gains a leading batch axis mapped over, the batch
axis of the output coming first. -/
def vmap1 {α β γ : Type} {m : ℕ} (g : α → β → γ) (x : α) (N : Fin m → β) :
    Fin m → γ := fun b => g x (N b)

/-- `psi = f(params)` after the complex cast, line 93–94 of the source. -/
def psiOf {p d : ℕ} (f : DiffFun p d) (params : Fin p → ℝ) : Vec d :=
  f.val (castC params)

/-- `jac = backend.transpose(backend.jacfwd(f)(params))`: row `i` is the
derivative of the state with respect to parameter `i` (column `i` of the
Jacobian).  `jacrev` is modelled by the same oracle Jacobian (followed in
the source by a complex cast, a no-op here). -/
def jacTOf {p d : ℕ} (f : DiffFun p d) (params : Fin p → ℝ) : Fin p → Vec d :=
  fun i k => f.jac (castC params) k i

/-- `fim = vvij(jac, jac)` with `vij = vmap(ij, 0)` and
`vvij = vmap(vij, 1)`, lines 112–115 of the source. -/
def qngFimWith {p d : ℕ} (ij : Vec d → Vec d → ℂ) (jacT : Fin p → Vec d) :
    Mat p p :=
  vmap1 (vmap0 ij) jacT jacT

/-- The matrix computed by the `qng` wrapper before postprocessing, for
the default kernel `"qng"`. -/
def qngFimOf {p d : ℕ} (f : DiffFun p d) (params : Fin p → ℝ) : Mat p p :=
  qngFimWith
    (fun i j => vdot i j - vdot i (psiOf f params) * vdot (psiOf f params) j)
    (jacTOf f params)

/-- The wrapper returned by `qng(f, kernel, postprocess, mode)`, lines
85–131 of the source.  The `mode` argument selects `jacfwd` or `jacrev`,
both modelled by the oracle Jacobian of `f`. -/
def qng {p d : ℕ} (f : DiffFun p d) (kernel : String) (post : PostProcess p)
    (mode : String) (params : Fin p → ℝ) : Except PyErr (TOut p) :=
  match kernelBody kernel (psiOf f params) with
  | none => Except.error (PyErr.nameError nameErrMsg)
  | some ij =>
    match resolvePost post with
    | Except.error e => Except.error e
    | Except.ok pp => Except.ok (pp (qngFimWith ij (jacTOf f params)))

/-- `dynamics_matrix = partial(qng, kernel="dynamics", postprocess=None)`. -/
def dynamics_matrix {p d : ℕ} (f : DiffFun p d) :
    (Fin p → ℝ) → Except PyErr (TOut p) :=
  qng f "dynamics" PostProcess.pnone "fwd"

/-- Modelled from the spec: the matrix computed by the `qng2` wrapper
(lines 137–185 of the source) before postprocessing.  The inner
`backend.vjp(partial(inner_product, params2=params2), params, ones([]))`
is the gradient, with respect to the real parameters `params`, of
`fid = ⟪f(params2), f(params)⟫ − ⟪f(params2), sg f(params)⟫ ⟪sg f(params2), f(params)⟫`
(`sg` = `stop_gradient`, held constant), giving
`outer_loop(params2)ₐ = ⟪s2, ∂ₐs⟫ − ⟪s2, s⟫ ⟪sg s2, ∂ₐs⟫`.
The outer `backend.jacrev(outer_loop)(params2)` then differentiates in
`params2` (with `params2 = stop_gradient(copy(params))`, so the two
points coincide), where `d/dq_b f(q) = ∂_b s`,
`d/dq_b conj (f (q)) = conj (∂_b s)`, and the `sg s2` factor is constant;
entry `(a, b)` of a reverse-mode Jacobian is `∂ output_a / ∂ input_b`. -/
def qng2Fim {p d : ℕ} (f : DiffFun p d) (kernel : String)
    (params : Fin p → ℝ) : Mat p p :=
  fun a b =>
    vdot (jacTOf f params b) (jacTOf f params a) -
      (if kernel = "qng" then
        vdot (jacTOf f params b) (psiOf f params) *
          vdot (psiOf f params) (jacTOf f params a)
      else 0)

/-- The wrapper returned by `qng2(f, kernel, postprocess, mode)`: the
`qng2Fim` matrix followed by the same postprocess resolution as `qng`.
Unlike `qng`, an unrecognised kernel merely skips the subtraction, so no
name error can occur. -/
def qng2 {p d : ℕ} (f : DiffFun p d) (kernel : String) (post : PostProcess p)
    (mode : String) (params : Fin p → ℝ) : Except PyErr (TOut p) :=
  match resolvePost post with
  | Except.error e => Except.error e
  | Except.ok pp => Except.ok (pp (qng2Fim f kernel params))

/-- Modelled from the spec: `backend.vmap(f, vectorized_argnums=0)` of a
single-tensor-argument function, acting on the leading (batch) axis —
mapping over a list of inputs. -/
def vmapL {α β : Type} (f : α → β) : List α → List β := List.map f

/-- The wrapper returned by `adaptive_vmap(f, 0, chunk_size)` for a
function of a single tensor argument, lines 15–68 of the source.  With
`chunk_size = None` the plain backend vmap is returned; otherwise the
batch of `n` rows is split into `s1 = n / c` chunks of `c` rows
(`arg[:-s2]` reshaped to `[s1, c, ...]`, looped over and re-flattened)
plus, when `s2 = n % c ≠ 0`, a remainder batch `arg[-s2:]` processed by
one extra vmapped call and concatenated after the chunked part. -/
def adaptive_vmap {α β : Type} (f : α → β) (chunk_size : Option ℕ) :
    List α → List β :=
  match chunk_size with
  | none => vmapL f
  | some c => fun xs =>
    let n := xs.length
    let s1 := n / c
    let s2 := n % c
    let main := if s2 ≠ 0 then xs.take (n - s2) else xs
    let rest := if s2 ≠ 0 then xs.drop (n - s2) else []
    let chunks := (List.range s1).map (fun i => (main.drop (i * c)).take c)
    let r := (chunks.map (vmapL f)).flatten
    if s2 ≠ 0 then r ++ vmapL f rest else r

/-- `w @ h` for the model of `dynamics_rhs`: a matrix-vector product
`(h @ wr)` with `wr` the column reshape of the state.  The sparse branch
(`backend.sparse_dense_matmul(h, wr)`) computes the same product. -/
def mulVecC {d : ℕ} (h : Mat d d) (w : Vec d) : Vec d :=
  fun k => ∑ l, h k l * w l

/-- The wrapper returned by `dynamics_rhs(f, h)`, lines 188–206 of the
source: `energy(params) = Re[(conj w)ᵀ h (stop_gradient w)][0,0]` with
`w = f(params)`, and the returned value is `backend.grad(energy)(params)`.
Modelled from the spec: for real `params` the gradient of
`Re ∑ₖ conj (w k) * (h w)ₖ` with the ket factor `stop_gradient`-blocked is
`Re ∑ₖ conj (∂ₐw k) * (h w)ₖ` in component `a`.  The `sparse` flag selects
the `backend.is_sparse(h)` branch; both branches form `h @ wr`. -/
def dynamics_rhs {p d : ℕ} (f : DiffFun p d) (h : Mat d d) (sparse : Bool)
    (params : Fin p → ℝ) : Fin p → ℝ :=
  let w := psiOf f params
  let hwr := if sparse then mulVecC h w else mulVecC h w
  fun a => (∑ k, (starRingEnd ℂ) (f.jac (castC params) k a) * hwr k).re

/-- Row `k` of `batched_arg + onehot` in `parameter_shift_grad`: the flat
argument with `s0` added at flat index `k`. -/
def plusRow (x : List ℝ) (k : ℕ) (s0 : ℝ) : List ℝ :=
  x.mapIdx (fun j v => v + if j = k then s0 else 0)

/-- Row `k` of `batched_arg - onehot` in `parameter_shift_grad`. -/
def minusRow (x : List ℝ) (k : ℕ) (s0 : ℝ) : List ℝ :=
  x.mapIdx (fun j v => v - if j = k then s0 else 0)

/-- The gradient computed for the argument at position `i` by the
function returned by `parameter_shift_grad`, lines 241–258 of the
source.  Tensors are modelled flat (shape = length): `size` one-hot
shifted copies of `args[i]` are built, `f` is vmapped over the batch for
the `+` and `-` shifts, and the difference is divided by `shifts[1]`;
the reshape back to the shape of `args[i]` is the identity on the flat
model. -/
def psGradOne (f : List (List ℝ) → ℝ) (s0 s1 : ℝ) (args : List (List ℝ))
    (i : ℕ) : List ℝ :=
  let x := args.getD i []
  let size := x.length
  List.zipWith (fun a b => (a - b) / s1)
    ((List.range size).map (fun k => f (args.set i (plusRow x k s0))))
    ((List.range size).map (fun k => f (args.set i (minusRow x k s0))))

/-- The value returned by a `parameter_shift_grad` gradient function: a
tuple of gradients or a single gradient tensor. -/
inductive PSRes where
  | single (g : List ℝ) : PSRes
  | multiple (gs : List (List ℝ)) : PSRes

/-- The function returned by `parameter_shift_grad(f, argnums, jit,
shifts)` (`jit` only wraps `f` and is the identity here).  After the
per-position gradients are collected, `len(argnums) > 1` returns the
tuple, otherwise `grad_values[0]` is returned — an `IndexError` when
`argnums` is empty. -/
def parameter_shift_grad (f : List (List ℝ) → ℝ) (s0 s1 : ℝ)
    (argnums : List ℕ) (args : List (List ℝ)) : Except PyErr PSRes :=
  let gs := argnums.map (psGradOne f s0 s1 args)
  if 1 < argnums.length then Except.ok (PSRes.multiple gs)
  else
    match gs with
    | [g] => Except.ok (PSRes.single g)
    | _ => Except.error (PyErr.indexError "list index out of range")

/-- Modelled from the spec: `key, subkey = backend.random_split(key)`
iterated `m` times, returning the list of subkeys and the final carry
key (keys are opaque tensors, modelled as flat lists). -/
def splitKeys (split : List ℝ → List ℝ × List ℝ) (key : List ℝ) :
    ℕ → List (List ℝ) × List ℝ
  | 0 => ([], key)
  | m + 1 =>
    let kk := split key
    let rest := splitKeys split kk.1 m
    (kk.2 :: rest.1, rest.2)

/-- The per-row substitution of fresh random subkeys performed by
`parameter_shift_grad_v2` for each position `j` in `random_argnums`:
row `k` of the batched call receives subkey `k` of the first (`+` shift)
or second (`-` shift) block of `2 * size` splits of `args[j]`. -/
def randRow (split : List ℝ → List ℝ × List ℝ) (rand : List ℕ)
    (args : List (List ℝ)) (size k : ℕ) (first : Bool)
    (base : List (List ℝ)) : List (List ℝ) :=
  rand.foldl
    (fun acc j =>
      let block1 := splitKeys split (args.getD j []) size
      let block2 := (splitKeys split block1.2 size).1
      acc.set j ((if first then block1.1 else block2).getD k []))
    base

/-- The gradient for position `i` computed by the function returned by
`parameter_shift_grad_v2`, lines 309–339 of the source: as in
`psGradOne`, but each batched call also replaces the arguments listed in
`random_argnums` with freshly split subkeys. -/
def psGradOneV2 (f : List (List ℝ) → ℝ) (s0 s1 : ℝ)
    (split : List ℝ → List ℝ × List ℝ) (rand : List ℕ)
    (args : List (List ℝ)) (i : ℕ) : List ℝ :=
  let x := args.getD i []
  let size := x.length
  List.zipWith (fun a b => (a - b) / s1)
    ((List.range size).map
      (fun k => f (randRow split rand args size k true (args.set i (plusRow x k s0)))))
    ((List.range size).map
      (fun k => f (randRow split rand args size k false (args.set i (minusRow x k s0)))))

/-- The function returned by `parameter_shift_grad_v2(f, argnums, jit,
random_argnums, shifts)`; with `random_argnums = None` (modelled as the
empty list) it reduces to the `parameter_shift_grad` computation. -/
def parameter_shift_grad_v2 (f : List (List ℝ) → ℝ) (s0 s1 : ℝ)
    (split : List ℝ → List ℝ × List ℝ) (rand : List ℕ)
    (argnums : List ℕ) (args : List (List ℝ)) : Except PyErr PSRes :=
  let gs := argnums.map (psGradOneV2 f s0 s1 split rand args)
  if 1 < argnums.length then Except.ok (PSRes.multiple gs)
  else
    match gs with
    | [g] => Except.ok (PSRes.single g)
    | _ => Except.error (PyErr.indexError "list index out of range")

/-- The Euclidean norm `backend.norm` of a state vector. -/
def l2norm {d : ℕ} (v : Vec d) : ℝ := Real.sqrt (∑ k, Complex.normSq (v k))

/-- `psi_exact / backend.norm(psi_exact)`. -/
def normalizeV {d : ℕ} (v : Vec d) : Vec d := fun k => v k / (l2norm v : ℂ)

/-- `utpsi0 = reshape(transpose(u) @ reshape(psi0, [-1, 1]), [-1])`,
lines 372–374 of the source: note `transpose(u)`, not its conjugate. -/
def utpsi0Of {d : ℕ} (u : Mat d d) (psi0 : Vec d) : Vec d :=
  fun k => ∑ j, u j k * psi0 j

/-- The body `_evol(t)` of `hamiltonian_evol` (with `callback = None`):
`conj(u) @ (exp(-t * es) * utpsi0)`, normalized. -/
def evolOne {d : ℕ} (es : Fin d → ℝ) (u : Mat d d) (utpsi0 : Vec d)
    (t : ℝ) : Vec d :=
  normalizeV (fun k => ∑ l, (starRingEnd ℂ) (u k l) *
    ((Real.exp (-t * es l) : ℝ) * utpsi0 l))

/-- `hamiltonian_evol(tlist, h, psi0)`, lines 350–386 of the source.
Modelled from the spec: `backend.eigh(h)` returns real eigenvalues `es`
and a unitary `u` of eigenvector columns with `h = u diag(es) u†`; they
are taken as inputs here.  The function eagerly computes and stacks the
evolved states over `tlist` (`backend.jit` is the identity). -/
def hamiltonian_evol {d : ℕ} (tlist : List ℝ) (es : Fin d → ℝ)
    (u : Mat d d) (psi0 : Vec d) : List (Vec d) :=
  tlist.map (evolOne es u (utpsi0Of u psi0))

/-- Definition following the claim's words (C5): for a Hermitian `h`
with eigendecomposition `h = u diag(es) u†`, the closed-form
imaginary-time-evolved state `exp(-t h) psi0` normalized to unit norm,
i.e. `u @ (exp(-t es) * (u† @ psi0))` normalized. -/
def specEvol {d : ℕ} (es : Fin d → ℝ) (u : Mat d d) (psi0 : Vec d)
    (t : ℝ) : Vec d :=
  normalizeV (fun k => ∑ l, u k l *
    ((Real.exp (-t * es l) : ℝ) * (∑ j, (starRingEnd ℂ) (u j l) * psi0 j)))

/-- A concrete differentiable function on two parameters with a
one-dimensional state: zero value, constant Jacobian `[1, i]`. -/
def cf : DiffFun 2 1 where
  val := fun _ => fun _ => 0
  jac := fun _ => fun _ a => if a = 0 then 1 else Complex.I

/-- A concrete parameter point. -/
def p0 : Fin 2 → ℝ := fun _ => 0

/-- A concrete complex unitary, `(1/5) * [[3, 4i], [4i, 3]]`. -/
def uC : Mat 2 2 := fun k l => if k = l then (3 / 5 : ℂ) else (4 / 5 : ℂ) * Complex.I

/-- Concrete eigenvalues `(0, 1)`. -/
def esC : Fin 2 → ℝ := fun k => if k = 0 then 0 else 1

/-- A concrete real initial state `(1, 0)`. -/
def psi0C : Vec 2 := fun k => if k = 0 then 1 else 0

end

namespace Lemmas

/-- Conjugating a `vdot` swaps its arguments. -/
theorem vdot_conj {d : ℕ} (a b : Vec d) :
    (starRingEnd ℂ) (vdot a b) = vdot b a := by
  simp only [vdot, map_sum, map_mul, Complex.conj_conj]
  exact Finset.sum_congr rfl (fun k _ => mul_comm _ _)

end Lemmas

namespace Lemmas

/-- Flattening the mapped chunks `xs[i*c : i*c + c]`, `i < s1`, yields
the image of the first `s1 * c` rows. -/
theorem flatten_chunks {α β : Type} (f : α → β) (c : ℕ) (xs : List α) :
    ∀ s1, ((List.range s1).map
        (fun i => List.map f ((xs.drop (i * c)).take c))).flatten =
      List.map f (xs.take (s1 * c)) := by
  intro s1
  induction s1 with
  | zero => simp
  | succ n ih =>
    rw [List.range_succ, List.map_append, List.flatten_append]
    simp only [List.map_cons, List.map_nil, List.flatten_cons,
      List.flatten_nil, List.append_nil]
    rw [ih, Nat.succ_mul, List.take_add, List.map_append]

/-- The chunked part of `adaptive_vmap` covers exactly the first
`n / c * c` rows. -/
theorem main_part_eq {α : Type} (c : ℕ) (xs : List α) :
    xs.length - xs.length % c = xs.length / c * c := by
  have hdm := Nat.div_add_mod xs.length c
  have : c * (xs.length / c) = xs.length / c * c := mul_comm _ _
  omega

/-- Zipping two images of the same list combines them pointwise. -/
theorem zipWith_maps {α β γ : Type} (h : β → β → γ) (F G : α → β)
    (l : List α) :
    List.zipWith h (l.map F) (l.map G) = l.map (fun a => h (F a) (G a)) := by
  induction l with
  | nil => rfl
  | cons x t ih => simp [ih]

/-- `mapIdx` with the identity in the value is the identity. -/
theorem mapIdx_id {α : Type} (l : List α) :
    List.mapIdx (fun _ v => v) l = l := by
  induction l with
  | nil => rfl
  | cons a t ih => simp [List.mapIdx_cons, ih]

/-- Adding `s0` through the scaled one-hot row `k` is an update of the
flat entry at index `k`. -/
theorem plusRow_eq_set (x : List ℝ) (k : ℕ) (s : ℝ) :
    plusRow x k s = x.set k (x.getD k 0 + s) := by
  induction x generalizing k with
  | nil => rfl
  | cons a t ih =>
    cases k with
    | zero =>
      simp only [plusRow, List.mapIdx_cons, if_pos rfl, List.set_cons_zero,
        List.getD_cons_zero]
      congr 1
      have : (fun (i : ℕ) (v : ℝ) => v + if i + 1 = 0 then s else 0) =
          fun _ v => v := by
        funext i v
        simp
      rw [this]
      exact mapIdx_id t
    | succ n =>
      simp only [plusRow, List.mapIdx_cons, List.set_cons_succ,
        List.getD_cons_succ]
      have hif : (if (0 : ℕ) = n + 1 then s else 0) = 0 := by simp
      rw [hif, add_zero]
      congr 1
      have : (fun (j : ℕ) (v : ℝ) => v + if j + 1 = n + 1 then s else 0) =
          fun j v => v + if j = n then s else 0 := by
        funext j v
        simp
      rw [this]
      exact ih n

/-- Subtracting `s0` through the scaled one-hot row `k` is an update of
the flat entry at index `k`. -/
theorem minusRow_eq_set (x : List ℝ) (k : ℕ) (s : ℝ) :
    minusRow x k s = x.set k (x.getD k 0 - s) := by
  have h : minusRow x k s = plusRow x k (-s) := by
    simp only [minusRow, plusRow]
    congr 1
    funext j v
    rcases eq_or_ne j k with hj | hj <;> simp [hj, sub_eq_add_neg]
  rw [h, plusRow_eq_set, sub_eq_add_neg]

end Lemmas

/-- C1 (amended): for every `f` and `params`, entry `(i, j)` of the
matrix computed by the default `qng(f)` wrapper before postprocessing is
the complex conjugate of `⟨∂ᵢψ|∂ⱼψ⟩ − ⟨∂ᵢψ|ψ⟩⟨ψ|∂ⱼψ⟩` (the stated
expression with `i` and `j` exchanged), and the default `"qng"`
postprocess then adds `eps * I` and takes the elementwise real part, so
that the final output entry `(i, j)` is
`Re(⟨∂ᵢψ|∂ⱼψ⟩ − ⟨∂ᵢψ|ψ⟩⟨ψ|∂ⱼψ⟩) + eps * δᵢⱼ`, exactly as the claim
describes. -/
theorem qng_fim_conj_and_default_output {p d : ℕ} (f : DiffFun p d)
    (params : Fin p → ℝ) :
    (∀ i j, qngFimOf f params i j =
      (starRingEnd ℂ) (vdot (jacTOf f params i) (jacTOf f params j) -
        vdot (jacTOf f params i) (psiOf f params) *
          vdot (psiOf f params) (jacTOf f params j))) ∧
    qng f "qng" (PostProcess.pstr "qng") "fwd" params =
      Except.ok (TOut.rmat (fun i j =>
        (vdot (jacTOf f params i) (jacTOf f params j) -
          vdot (jacTOf f params i) (psiOf f params) *
            vdot (psiOf f params) (jacTOf f params j)).re
        + (if i = j then qngEps else 0))) := by
  have hfim : ∀ i j, qngFimOf f params i j =
      (starRingEnd ℂ) (vdot (jacTOf f params i) (jacTOf f params j) -
        vdot (jacTOf f params i) (psiOf f params) *
          vdot (psiOf f params) (jacTOf f params j)) := by
    intro i j
    simp only [qngFimOf, qngFimWith, vmap0, vmap1, map_sub, map_mul,
      Lemmas.vdot_conj]
    ring
  refine ⟨hfim, ?_⟩
  have hk : kernelBody "qng" (psiOf f params) =
      some (fun i j => vdot i j - vdot i (psiOf f params) *
        vdot (psiOf f params) j) := rfl
  simp only [qng, hk, resolvePost, if_pos rfl]
  refine congrArg Except.ok (congrArg TOut.rmat ?_)
  funext i j
  have : qngFimWith
      (fun i j => vdot i j - vdot i (psiOf f params) *
        vdot (psiOf f params) j) (jacTOf f params) i j =
      qngFimOf f params i j := rfl
  rw [qng_post_process, this, hfim i j]
  rcases eq_or_ne i j with h | h
  · simp [h, Complex.add_re, Complex.conj_re, qngEps]
  · simp [h, Complex.conj_re]

/-- C1 (counterexample): at the concrete function `cf` (state constantly
`0`, Jacobian columns `1` and `i`) and parameters `p0`, entry `(0, 1)`
of the pre-postprocess matrix is `-i`, not the claimed
`⟨∂₀ψ|∂₁ψ⟩ − ⟨∂₀ψ|ψ⟩⟨ψ|∂₁ψ⟩ = i`. -/
theorem qng_fim_entry_counterexample :
    qngFimOf cf p0 0 1 ≠
      vdot (jacTOf cf p0 0) (jacTOf cf p0 1) -
        vdot (jacTOf cf p0 0) (psiOf cf p0) *
          vdot (psiOf cf p0) (jacTOf cf p0 1) := by
  have h1 : qngFimOf cf p0 0 1 = -Complex.I := by
    simp [qngFimOf, qngFimWith, vmap0, vmap1, jacTOf, psiOf, vdot, cf, p0,
      castC, Fin.sum_univ_succ]
  have h2 : vdot (jacTOf cf p0 0) (jacTOf cf p0 1) -
      vdot (jacTOf cf p0 0) (psiOf cf p0) *
        vdot (psiOf cf p0) (jacTOf cf p0 1) = Complex.I := by
    simp [jacTOf, psiOf, vdot, cf, p0, castC, Fin.sum_univ_succ]
  rw [h1, h2]
  intro h
  have him := congrArg Complex.im h
  rw [Complex.neg_im, Complex.I_im] at him
  norm_num at him

/-- C2: with the default kernel `"qng"` and default postprocess `"qng"`,
the wrapper returned by `qng(f)` (forward mode) and the wrapper returned
by `qng2(f)` (reverse mode) return the same matrix for every `f` and
`params`. -/
theorem qng_eq_qng2_default {p d : ℕ} (f : DiffFun p d)
    (params : Fin p → ℝ) :
    qng f "qng" (PostProcess.pstr "qng") "fwd" params =
      qng2 f "qng" (PostProcess.pstr "qng") "rev" params := rfl

/-- C3: for every single-tensor-argument `f`, every `chunk_size c ≥ 1`
and every batch, the `adaptive_vmap` wrapper splits the batch into
`⌊n/c⌋` chunks of `c` rows plus one remainder call on the `n mod c`
last rows, concatenated back in the original row order, and the result
equals the plain backend vmap of `f` on the whole batch; with
`chunk_size = None` the plain backend vmap is returned unchanged. -/
theorem adaptive_vmap_eq_vmap {α β : Type} (f : α → β) (c : ℕ)
    (hc : 1 ≤ c) (xs : List α) :
    adaptive_vmap f (some c) xs =
        vmapL f (xs.take (xs.length / c * c)) ++
          vmapL f (xs.drop (xs.length / c * c)) ∧
    adaptive_vmap f (some c) xs = vmapL f xs ∧
    adaptive_vmap f none xs = vmapL f xs := by
  have hsplit : adaptive_vmap f (some c) xs =
      vmapL f (xs.take (xs.length / c * c)) ++
        vmapL f (xs.drop (xs.length / c * c)) := by
    show (if xs.length % c ≠ 0 then _ else _) = _
    rcases eq_or_ne (xs.length % c) 0 with h0 | h0
    · rw [if_neg (by simpa using h0)]
      have hmain : (if xs.length % c ≠ 0
          then xs.take (xs.length - xs.length % c) else xs) = xs := by
        simp [h0]
      rw [hmain]
      simp only [vmapL, List.map_map, Function.comp_def]
      rw [Lemmas.flatten_chunks]
      have hlen : xs.length / c * c = xs.length := by
        have := Lemmas.main_part_eq c xs
        omega
      rw [hlen, List.take_length, List.drop_length]
      simp [vmapL]
    · rw [if_pos h0]
      have hmain : (if xs.length % c ≠ 0
          then xs.take (xs.length - xs.length % c) else xs) =
          xs.take (xs.length / c * c) := by
        rw [if_pos h0, Lemmas.main_part_eq]
      have hrest : (if xs.length % c ≠ 0
          then xs.drop (xs.length - xs.length % c) else []) =
          xs.drop (xs.length / c * c) := by
        rw [if_pos h0, Lemmas.main_part_eq]
      rw [hmain, hrest]
      simp only [vmapL, List.map_map, Function.comp_def]
      rw [Lemmas.flatten_chunks]
      have htt : (xs.take (xs.length / c * c)).take (xs.length / c * c) =
          xs.take (xs.length / c * c) := by
        rw [List.take_take, min_self]
      rw [htt]
  refine ⟨hsplit, ?_, rfl⟩
  rw [hsplit]
  show List.map f _ ++ List.map f _ = List.map f xs
  rw [← List.map_append, List.take_append_drop]

/-- C3 (witness): the theorem applied at `f = Nat.succ`, chunk size `2`
and the batch `[1, 2, 3, 4, 5]` (two chunks of two rows plus a
remainder of one row). -/
theorem adaptive_vmap_eq_vmap_witness :
    (1 ≤ 2) ∧
    (adaptive_vmap Nat.succ (some 2) [1, 2, 3, 4, 5] =
        vmapL Nat.succ (([1, 2, 3, 4, 5] : List ℕ).take
          (([1, 2, 3, 4, 5] : List ℕ).length / 2 * 2)) ++
          vmapL Nat.succ (([1, 2, 3, 4, 5] : List ℕ).drop
            (([1, 2, 3, 4, 5] : List ℕ).length / 2 * 2)) ∧
      adaptive_vmap Nat.succ (some 2) [1, 2, 3, 4, 5] =
        vmapL Nat.succ [1, 2, 3, 4, 5] ∧
      adaptive_vmap Nat.succ none [1, 2, 3, 4, 5] =
        vmapL Nat.succ [1, 2, 3, 4, 5]) :=
  ⟨by decide, adaptive_vmap_eq_vmap Nat.succ 2 (by decide) [1, 2, 3, 4, 5]⟩

/-- C4: for every scalar-valued `f`, shift constants `(s0, s1)`
(defaulting to `(π/2, 2)` in the source) and tensor argument at a valid
position `i`, the function returned by `parameter_shift_grad` computes
component `k` of the gradient for position `i` as
`(f(x + s0·e_k) − f(x − s0·e_k)) / s1` with `e_k` the one-hot tensor for
flat index `k` (an update of flat entry `k` of `x = args[i]`), reshaped
to the shape of `x`; with `argnums = [i]` the wrapper returns exactly
this gradient. -/
theorem parameter_shift_grad_component (f : List (List ℝ) → ℝ)
    (s0 s1 : ℝ) (args : List (List ℝ)) (i : ℕ) (h : i < args.length) :
    psGradOne f s0 s1 args i =
      (List.range (args.get ⟨i, h⟩).length).map (fun k =>
        (f (args.set i ((args.get ⟨i, h⟩).set k
            ((args.get ⟨i, h⟩).getD k 0 + s0))) -
          f (args.set i ((args.get ⟨i, h⟩).set k
            ((args.get ⟨i, h⟩).getD k 0 - s0)))) / s1) ∧
    parameter_shift_grad f s0 s1 [i] args =
      Except.ok (PSRes.single (psGradOne f s0 s1 args i)) := by
  have hx : args.getD i [] = args.get ⟨i, h⟩ := by
    rw [List.getD_eq_getElem _ _ h]
    simp
  constructor
  · simp only [psGradOne, hx, Lemmas.zipWith_maps]
    refine List.map_congr_left (fun k _ => ?_)
    rw [Lemmas.plusRow_eq_set, Lemmas.minusRow_eq_set]
  · rfl

/-- C4 (witness): the theorem applied at `f ≡ 0`, `args = [[1]]`,
`i = 0`. -/
theorem parameter_shift_grad_component_witness :
    (0 < ([[(1 : ℝ)]] : List (List ℝ)).length) ∧
    (psGradOne (fun _ => (0 : ℝ)) 1 2 [[(1 : ℝ)]] 0 =
      (List.range (([[(1 : ℝ)]] : List (List ℝ)).get
          ⟨0, by simp⟩).length).map (fun k =>
        ((fun _ => (0 : ℝ)) ([[(1 : ℝ)]].set 0
            ((([[(1 : ℝ)]] : List (List ℝ)).get ⟨0, by simp⟩).set k
              ((([[(1 : ℝ)]] : List (List ℝ)).get ⟨0, by simp⟩).getD k 0 + 1))) -
          (fun _ => (0 : ℝ)) ([[(1 : ℝ)]].set 0
            ((([[(1 : ℝ)]] : List (List ℝ)).get ⟨0, by simp⟩).set k
              ((([[(1 : ℝ)]] : List (List ℝ)).get ⟨0, by simp⟩).getD k 0 - 1)))) / 2) ∧
      parameter_shift_grad (fun _ => (0 : ℝ)) 1 2 [0] [[(1 : ℝ)]] =
        Except.ok (PSRes.single (psGradOne (fun _ => (0 : ℝ)) 1 2 [[(1 : ℝ)]] 0))) :=
  ⟨by simp, parameter_shift_grad_component (fun _ => 0) 1 2 [[(1 : ℝ)]] 0 (by simp)⟩

/-- C5 (amended): `hamiltonian_evol` returns, stacked in `tlist` order,
the normalized states of closed-form imaginary-time evolution under the
transpose of `h`: since the code multiplies by `transpose(u)` and
`conj(u)` instead of `u†` and `u`, each state is
`exp(-t·hᵀ) psi0` normalized, i.e. the claimed formula with `u` replaced
by its elementwise conjugate (the eigenvector matrix of
`hᵀ = conj(u) diag(es) conj(u)†`).  For real `u` (hence real `h`) this
coincides with the claimed `exp(-t·h) psi0`. -/
theorem hamiltonian_evol_is_transposed_evolution {d : ℕ} (tlist : List ℝ)
    (es : Fin d → ℝ) (u : Mat d d) (psi0 : Vec d) :
    hamiltonian_evol tlist es u psi0 =
      tlist.map (specEvol es (fun k l => (starRingEnd ℂ) (u k l)) psi0) := by
  unfold hamiltonian_evol
  refine List.map_congr_left (fun t _ => ?_)
  simp only [specEvol, evolOne, Complex.conj_conj, utpsi0Of]

/-- C5 (counterexample): for the complex Hermitian Hamiltonian
`h = uC diag(0,1) uC† = [[16/25, 12i/25], [-12i/25, 9/25]]` and the real
initial state `(1,0)`, the state returned by `hamiltonian_evol` at
`t = 1` differs from the claimed normalized `exp(-t h) psi0 =
uC (exp(-t es) * (uC† psi0))` normalized: the two states are complex
conjugates of one another with nonvanishing imaginary part. -/
theorem hamiltonian_evol_counterexample :
    hamiltonian_evol [(1 : ℝ)] esC uC psi0C ≠ [specEvol esC uC psi0C 1] := by
  intro h
  have h1 : evolOne esC uC (utpsi0Of uC psi0C) 1 = specEvol esC uC psi0C 1 := by
    simpa [hamiltonian_evol] using h
  have hut : utpsi0Of uC psi0C = fun l => uC 0 l := by
    funext l
    simp [utpsi0Of, psi0C, Fin.sum_univ_two, uC]
  have hut2 : ∀ l, (∑ j, (starRingEnd ℂ) (uC j l) * psi0C j) =
      (starRingEnd ℂ) (uC 0 l) := by
    intro l
    simp [psi0C, Fin.sum_univ_two]
  set w : Vec 2 := fun k => ∑ l, (starRingEnd ℂ) (uC k l) *
    ((Real.exp (-(1 : ℝ) * esC l) : ℝ) * utpsi0Of uC psi0C l) with hw
  set v : Vec 2 := fun k => ∑ l, uC k l *
    ((Real.exp (-(1 : ℝ) * esC l) : ℝ) *
      (∑ j, (starRingEnd ℂ) (uC j l) * psi0C j)) with hv
  have h1' : normalizeV w = normalizeV v := h1
  have hw0 : w 0 = (((9 + 16 * Real.exp (-1)) / 25 : ℝ) : ℂ) := by
    rw [hw, hut]
    simp only [Fin.sum_univ_two, uC, esC]
    norm_num [Complex.conj_I, map_div₀, map_ofNat, Complex.ext_iff]
    constructor <;> ring
  have hw1 : w 1 = ((12 * (Real.exp (-1) - 1) / 25 : ℝ) : ℂ) * Complex.I := by
    rw [hw, hut]
    simp only [Fin.sum_univ_two, uC, esC]
    norm_num [Complex.conj_I, map_div₀, map_ofNat, Complex.ext_iff]
    constructor <;> ring
  have hv0 : v 0 = (((9 + 16 * Real.exp (-1)) / 25 : ℝ) : ℂ) := by
    rw [hv]
    simp only [hut2]
    simp only [Fin.sum_univ_two, uC, esC]
    norm_num [Complex.conj_I, map_div₀, map_ofNat, Complex.ext_iff]
    constructor <;> ring
  have hv1 : v 1 = ((12 * (1 - Real.exp (-1)) / 25 : ℝ) : ℂ) * Complex.I := by
    rw [hv]
    simp only [hut2]
    simp only [Fin.sum_univ_two, uC, esC]
    norm_num [Complex.conj_I, map_div₀, map_ofNat, Complex.ext_iff]
    constructor <;> ring
  have hnorm : l2norm w = l2norm v := by
    unfold l2norm
    rw [Fin.sum_univ_two, Fin.sum_univ_two, hw0, hw1, hv0, hv1]
    simp only [Complex.normSq_mul, Complex.normSq_I, Complex.normSq_ofReal]
    ring_nf
  have hrpos : (0 : ℝ) < Real.exp (-1) := Real.exp_pos _
  have hNpos : (0 : ℝ) < l2norm w := by
    unfold l2norm
    apply Real.sqrt_pos.mpr
    rw [Fin.sum_univ_two, hw0, hw1]
    simp only [Complex.normSq_mul, Complex.normSq_I, Complex.normSq_ofReal]
    nlinarith [sq_nonneg (12 * (Real.exp (-1) - 1) / 25)]
  have hN : (l2norm w : ℂ) ≠ 0 := by
    simp only [ne_eq, Complex.ofReal_eq_zero]
    exact hNpos.ne'
  have h2 : w 1 / (l2norm w : ℂ) = v 1 / (l2norm w : ℂ) := by
    have := congrFun h1' 1
    simpa [normalizeV, ← hnorm] using this
  have h3 : w 1 = v 1 := by
    field_simp at h2
    exact h2
  rw [hw1, hv1] at h3
  have h4 : 12 * (Real.exp (-1) - 1) / 25 = 12 * (1 - Real.exp (-1)) / 25 := by
    have := mul_right_cancel₀ Complex.I_ne_zero h3
    exact_mod_cast this
  have hlt : Real.exp (-1) < 1 := Real.exp_lt_one_iff.mpr (by norm_num)
  nlinarith

/-- C6 (amended): with the default kernel `"qng"`, the wrappers returned
by `qng(f, postprocess=p)` and `qng2(f, postprocess=p)` raise
`ValueError("Unsupported postprocess option")` when called if and only
if `p` is a string different from `"qng"`; when `p` is `None` the matrix
is returned unprocessed, and when `p` is a callable that callable is
applied to the matrix.  (The claim's stronger clause that this is the
only error raised by the module fails: an unsupported `kernel` makes
`qng` fail with a name error, see the counterexample and C9.) -/
theorem qng_postprocess_option_behavior {p d : ℕ} (f : DiffFun p d)
    (params : Fin p → ℝ) :
    (∀ s : String, (qng f "qng" (PostProcess.pstr s) "fwd" params =
        Except.error (PyErr.valueError "Unsupported postprocess option")) ↔
        s ≠ "qng") ∧
    qng f "qng" PostProcess.pnone "fwd" params =
      Except.ok (TOut.cmat (qngFimOf f params)) ∧
    (∀ g, qng f "qng" (PostProcess.pfun g) "fwd" params =
      Except.ok (TOut.cmat (g (qngFimOf f params)))) ∧
    (∀ s : String, (qng2 f "qng" (PostProcess.pstr s) "rev" params =
        Except.error (PyErr.valueError "Unsupported postprocess option")) ↔
        s ≠ "qng") ∧
    qng2 f "qng" PostProcess.pnone "rev" params =
      Except.ok (TOut.cmat (qng2Fim f "qng" params)) ∧
    (∀ g, qng2 f "qng" (PostProcess.pfun g) "rev" params =
      Except.ok (TOut.cmat (g (qng2Fim f "qng" params)))) := by
  refine ⟨?_, rfl, fun g => rfl, ?_, rfl, fun g => rfl⟩
  · intro s
    by_cases hs : s = "qng" <;>
      simp [qng, kernelBody, resolvePost, hs]
  · intro s
    by_cases hs : s = "qng" <;>
      simp [qng2, resolvePost, hs]

/-- C6 (counterexample): `qng` with an unsupported kernel raises a
Python name error when called — an error of the module that is not the
postprocess `ValueError`, falsifying the claim that the postprocess
validation failure is the only error raised by the module's
functions. -/
theorem qng_unsupported_kernel_error_counterexample :
    qng cf "foo" (PostProcess.pstr "qng") "fwd" p0 =
      Except.error (PyErr.nameError nameErrMsg) ∧
    PyErr.nameError nameErrMsg ≠
      PyErr.valueError "Unsupported postprocess option" := by
  exact ⟨rfl, by simp⟩

/-- C9: the `kernel` argument of `qng` has an unstated precondition:
for every kernel other than `"qng"` or `"dynamics"` the wrapper fails,
when called, with the unhandled name error for the never-defined local
pairing function `ij` (not the input-validation `ValueError` used for
`postprocess`), while for the kernels `"qng"` and `"dynamics"` this
failure branch is unreachable. -/
theorem qng_kernel_precondition {p d : ℕ} (f : DiffFun p d)
    (kernel : String) (post : PostProcess p) (mode : String)
    (params : Fin p → ℝ) (h1 : kernel ≠ "qng") (h2 : kernel ≠ "dynamics") :
    qng f kernel post mode params =
      Except.error (PyErr.nameError nameErrMsg) ∧
    qng f "qng" post mode params ≠
      Except.error (PyErr.nameError nameErrMsg) ∧
    qng f "dynamics" post mode params ≠
      Except.error (PyErr.nameError nameErrMsg) := by
  refine ⟨by simp [qng, kernelBody, h1, h2], ?_, ?_⟩
  · cases post with
    | pstr s =>
      by_cases hs : s = "qng" <;> simp [qng, kernelBody, resolvePost, hs]
    | pnone => simp [qng, kernelBody, resolvePost]
    | pfun g => simp [qng, kernelBody, resolvePost]
  · cases post with
    | pstr s =>
      by_cases hs : s = "qng" <;> simp [qng, kernelBody, resolvePost, hs]
    | pnone => simp [qng, kernelBody, resolvePost]
    | pfun g => simp [qng, kernelBody, resolvePost]

/-- C9 (witness): the theorem applied at the concrete kernel `"foo"`,
function `cf`, postprocess `None` and parameters `p0`. -/
theorem qng_kernel_precondition_witness :
    (("foo" : String) ≠ "qng" ∧ ("foo" : String) ≠ "dynamics") ∧
    (qng cf "foo" PostProcess.pnone "fwd" p0 =
        Except.error (PyErr.nameError nameErrMsg) ∧
      qng cf "qng" PostProcess.pnone "fwd" p0 ≠
        Except.error (PyErr.nameError nameErrMsg) ∧
      qng cf "dynamics" PostProcess.pnone "fwd" p0 ≠
        Except.error (PyErr.nameError nameErrMsg)) :=
  ⟨⟨by decide, by decide⟩,
    qng_kernel_precondition cf "foo" PostProcess.pnone "fwd" p0
      (by decide) (by decide)⟩

/-- C7 (amended): `adaptive_vmap`, `qng`, `qng2`, `dynamics_matrix`,
`dynamics_rhs`, `parameter_shift_grad` and `parameter_shift_grad_v2`
return new callables — their models are function-valued, only consumed
when applied to call arguments (`adaptive_vmap(f, None)` is the plain
backend vmap, and `dynamics_matrix` is the partial application of `qng`
with the `"dynamics"` kernel and no postprocess) — whereas
`hamiltonian_evol` does not return a callable: applied to its arguments
`(tlist, h, psi0)` it returns the computed evolution itself, the stack
of the evolved states over `tlist`. -/
theorem module_functions_return_callables :
    (∀ (f : ℕ → ℕ) (xs : List ℕ), adaptive_vmap f none xs = vmapL f xs) ∧
    (∀ (f : DiffFun 2 2), dynamics_matrix f =
      qng f "dynamics" PostProcess.pnone "fwd") ∧
    (∀ (d : ℕ) (tlist : List ℝ) (es : Fin d → ℝ) (u : Mat d d)
      (psi0 : Vec d),
      hamiltonian_evol tlist es u psi0 =
        tlist.map (evolOne es u (utpsi0Of u psi0))) :=
  ⟨fun _ _ => rfl, fun _ => rfl, fun _ _ _ _ _ => rfl⟩

/-- C7 (counterexample): `hamiltonian_evol` applied to a time list, a
Hamiltonian eigendecomposition and an initial state returns the
computed, stacked list of evolved states — a value, with nothing left
to call — contradicting the claim that it returns a callable. -/
theorem hamiltonian_evol_returns_value_counterexample :
    hamiltonian_evol [(0 : ℝ)] (fun _ : Fin 1 => (0 : ℝ))
        (fun _ _ => 1) (fun _ => 1) = [fun _ => 1] := by
  simp only [hamiltonian_evol, List.map_cons, List.map_nil]
  congr 1
  funext k
  simp [evolOne, utpsi0Of, normalizeV, l2norm, Fin.sum_univ_one]

/-- C8: the wrapper returned by `dynamics_rhs(f, h)` computes, for dense
and sparse `h` alike, the gradient with respect to `params` of the real
part of `conj(f(params))ᵀ @ h @ stop_gradient(f(params))`: component `a`
is `Re ⟨∂ₐψ, h ψ⟩` — the bra side differentiated, the ket side held
constant. -/
theorem dynamics_rhs_gradient {p d : ℕ} (f : DiffFun p d) (h : Mat d d)
    (sparse : Bool) (params : Fin p → ℝ) :
    (∀ a, dynamics_rhs f h sparse params a =
      (vdot (fun k => f.jac (castC params) k a)
        (mulVecC h (psiOf f params))).re) ∧
    dynamics_rhs f h true params = dynamics_rhs f h false params := by
  constructor
  · intro a
    simp [dynamics_rhs, vdot, ite_self]
  · simp [dynamics_rhs]

/-- C10 (amended): for a nonempty `argnums` whose positions are all
valid, the gradient functions returned by `parameter_shift_grad` and
`parameter_shift_grad_v2` preserve argument shape and arity: the
gradient for each listed position has exactly the length (flat shape) of
that argument, and the result is a tuple of gradients if and only if
`argnums` lists more than one position, otherwise the single gradient
tensor itself.  (For empty `argnums` both functions instead raise an
`IndexError`, see the counterexample.) -/
theorem parameter_shift_grad_shape_arity (f : List (List ℝ) → ℝ)
    (s0 s1 : ℝ) (split : List ℝ → List ℝ × List ℝ) (rand : List ℕ)
    (argnums : List ℕ) (args : List (List ℝ))
    (h1 : argnums ≠ []) (h2 : ∀ i ∈ argnums, i < args.length) :
    (argnums.map (fun i => (psGradOne f s0 s1 args i).length) =
      argnums.map (fun i => (args.getD i []).length)) ∧
    (argnums.map (fun i => (psGradOneV2 f s0 s1 split rand args i).length) =
      argnums.map (fun i => (args.getD i []).length)) ∧
    parameter_shift_grad f s0 s1 argnums args =
      (if 1 < argnums.length
        then Except.ok (PSRes.multiple (argnums.map (psGradOne f s0 s1 args)))
        else Except.ok (PSRes.single
          (psGradOne f s0 s1 args (argnums.headD 0)))) ∧
    parameter_shift_grad_v2 f s0 s1 split rand argnums args =
      (if 1 < argnums.length
        then Except.ok (PSRes.multiple
          (argnums.map (psGradOneV2 f s0 s1 split rand args)))
        else Except.ok (PSRes.single
          (psGradOneV2 f s0 s1 split rand args (argnums.headD 0)))) := by
  have hone : argnums.length ≤ 1 → ∃ a, argnums = [a] := by
    intro hle
    have hpos : 0 < argnums.length := List.length_pos.mpr h1
    exact List.length_eq_one.mp (by omega)
  refine ⟨?_, ?_, ?_, ?_⟩
  · refine List.map_congr_left (fun i _ => ?_)
    simp [psGradOne]
  · refine List.map_congr_left (fun i _ => ?_)
    simp [psGradOneV2]
  · by_cases hlt : 1 < argnums.length
    · simp [parameter_shift_grad, hlt]
    · obtain ⟨a, rfl⟩ := hone (by omega)
      simp [parameter_shift_grad]
  · by_cases hlt : 1 < argnums.length
    · simp [parameter_shift_grad_v2, hlt]
    · obtain ⟨a, rfl⟩ := hone (by omega)
      simp [parameter_shift_grad_v2]

/-- C10 (witness): the theorem applied at `f ≡ 0`, shifts `(1, 2)`, a
trivial key splitter, no random argnums, `argnums = [0]` and
`args = [[1, 2]]`. -/
theorem parameter_shift_grad_shape_arity_witness :
    (([0] : List ℕ) ≠ [] ∧ ∀ i ∈ ([0] : List ℕ),
      i < ([[(1 : ℝ), 2]] : List (List ℝ)).length) ∧
    ((([0] : List ℕ).map (fun i =>
        (psGradOne (fun _ => (0 : ℝ)) 1 2 [[(1 : ℝ), 2]] i).length) =
      ([0] : List ℕ).map (fun i =>
        (([[(1 : ℝ), 2]] : List (List ℝ)).getD i []).length)) ∧
    (([0] : List ℕ).map (fun i =>
        (psGradOneV2 (fun _ => (0 : ℝ)) 1 2 (fun k => (k, k)) []
          [[(1 : ℝ), 2]] i).length) =
      ([0] : List ℕ).map (fun i =>
        (([[(1 : ℝ), 2]] : List (List ℝ)).getD i []).length)) ∧
    parameter_shift_grad (fun _ => (0 : ℝ)) 1 2 [0] [[(1 : ℝ), 2]] =
      (if 1 < ([0] : List ℕ).length
        then Except.ok (PSRes.multiple (([0] : List ℕ).map
          (psGradOne (fun _ => (0 : ℝ)) 1 2 [[(1 : ℝ), 2]])))
        else Except.ok (PSRes.single
          (psGradOne (fun _ => (0 : ℝ)) 1 2 [[(1 : ℝ), 2]]
            (([0] : List ℕ).headD 0)))) ∧
    parameter_shift_grad_v2 (fun _ => (0 : ℝ)) 1 2 (fun k => (k, k)) []
        [0] [[(1 : ℝ), 2]] =
      (if 1 < ([0] : List ℕ).length
        then Except.ok (PSRes.multiple (([0] : List ℕ).map
          (psGradOneV2 (fun _ => (0 : ℝ)) 1 2 (fun k => (k, k)) []
            [[(1 : ℝ), 2]])))
        else Except.ok (PSRes.single
          (psGradOneV2 (fun _ => (0 : ℝ)) 1 2 (fun k => (k, k)) []
            [[(1 : ℝ), 2]] (([0] : List ℕ).headD 0))))) :=
  ⟨⟨by decide, by decide⟩,
    parameter_shift_grad_shape_arity (fun _ => 0) 1 2 (fun k => (k, k)) []
      [0] [[(1 : ℝ), 2]] (by decide) (by decide)⟩

/-- C10 (counterexample): called with an empty `argnums` list, the
gradient function raises an `IndexError` (`grad_values[0]` on an empty
list) instead of returning the single gradient tensor the claim
promises for the not-more-than-one-position case. -/
theorem parameter_shift_grad_empty_argnums_counterexample :
    parameter_shift_grad (fun _ => (0 : ℝ)) 1 2 [] [] =
      Except.error (PyErr.indexError "list index out of range") := rfl

end TC
